import Mathlib

/-!
Verification development for the macOS backend of the sysinfo telemetry
library (src/mac/system.rs).  The Rust source is embedded shallowly:
pure functions become Lean functions, kernel and subprocess interactions
become explicit oracle records supplying the raw data the code would
have read, and the process table becomes an association list.  Machine
integer arithmetic is carried out on Nat and Int with explicit masking
where overflow matters.  IEEE float values produced by the tick-delta
divisions are modelled as Option Rat: some q stands for a finite value
of exact magnitude q (rounding is abstracted away) and none stands for
a non-finite value (NaN or an infinity); dividing by zero yields none,
and addition propagates none, exactly as IEEE non-finite values
propagate through the operations the source performs.
-/

set_option linter.unusedVariables false

namespace Sysinfo

/-- The single-quote character, written by code point to keep source plain. -/
def squote : Char := Char.ofNat 39

/-- The double-quote character. -/
def dquote : Char := Char.ofNat 34

/-- Equality on call results is decidable, for the concrete scenario
theorems. -/
instance exceptDecEq {e a : Type} [DecidableEq e] [DecidableEq a] :
    DecidableEq (Except e a) := fun x y =>
  match x, y with
  | .error u, .error v =>
    if h : u = v then .isTrue (congrArg Except.error h)
    else .isFalse (fun hh => h (Except.error.inj hh))
  | .ok u, .ok v =>
    if h : u = v then .isTrue (congrArg Except.ok h)
    else .isFalse (fun hh => h (Except.ok.inj hh))
  | .error _, .ok _ => .isFalse (fun hh => Except.noConfusion hh)
  | .ok _, .error _ => .isFalse (fun hh => Except.noConfusion hh)

/-- String consisting of the single-quote character. -/
def squoteS : String := String.mk [squote]

/-- String consisting of the double-quote character. -/
def dquoteS : String := String.mk [dquote]

/-- str::starts_with, carried out on the character lists so that every
concrete instance evaluates by kernel reduction. -/
def strStartsWith (s p : String) : Bool := p.toList.isPrefixOf s.toList

/-- str::ends_with on the character lists. -/
def strEndsWith (s p : String) : Bool := p.toList.isSuffixOf s.toList

/-- The byte slice from index n on (the ASCII reading of a Rust byte
slice of a str). -/
def strDrop (s : String) (n : Nat) : String := String.mk (s.toList.drop n)

/-- Space-join of tokens, the join of line 273. -/
def strJoinSpace (l : List String) : String :=
  String.mk (((l.map String.toList).intersperse [' ']).flatten)

/-- str::replace with a newline pattern and an empty replacement, which
for the one-character pattern is removal of every newline. -/
def stripNewlines (s : String) : String :=
  String.mk (s.toList.filter (fun c => c ≠ Char.ofNat 10))

/-- str::split on the space character: the pieces between spaces, empty
pieces included. -/
def strSplitSpaces (s : String) : List String :=
  (s.toList.splitOnP (fun c => c = ' ')).map String.mk

/-- Bytes of a raw kernel buffer, each in the range 0..255; 0 is the NUL
terminator.  The Rust code reads such regions with from_utf8_unchecked; we
model each byte as one character, which is exact for ASCII data. -/
def bytesToString (l : List Nat) : String :=
  String.mk (l.map Char.ofNat)

/-- Length of dropWhile is at most the length of the input list. -/
theorem length_dropWhile_le' (p : α → Bool) (l : List α) :
    (l.dropWhile p).length ≤ l.length := by
  induction l with
  | nil => simp [List.dropWhile]
  | cons a l ih =>
    by_cases h : p a
    · simpa [List.dropWhile, h] using Nat.le_succ_of_le ih
    · simp [List.dropWhile, h]

/-- The quote test of lines 268-269: the quote character opening the
current token, when there is one. -/
def quoteOf (t : String) : Option String :=
  if strStartsWith t squoteS then some squoteS
  else if strStartsWith t dquoteS then some dquoteS
  else none

/--
Worker of parse_command_line (system.rs lines 263-281).  The Rust code
walks the token list with indices x and y: when token x starts with a
quote character it advances y to the first token that ends with the same
quote character (or to the end), pushes the space-join of tokens x..y
(range exclusive of y), and resumes after y; tokens not starting with a
quote are pushed unchanged.  The fuel argument only bounds the loop
iteration count, each of which consumes at least one token; the wrapper
supplies the token count, which always suffices.
-/
def pclGo : Nat → List String → List String
  | 0, _ => []
  | _, [] => []
  | fuel + 1, t :: rest =>
    match quoteOf t with
    | some c =>
      let pre := (t :: rest).takeWhile (fun s => !strEndsWith s c)
      match (t :: rest).dropWhile (fun s => !strEndsWith s c) with
      | [] => [strJoinSpace pre]
      | _ :: rest2 => strJoinSpace pre :: pclGo fuel rest2
    | none => t :: pclGo fuel rest

/-- Embedding of parse_command_line (lines 263-281); see pclGo. -/
def parse_command_line (cmd : List String) : List String :=
  pclGo cmd.length cmd

/-- Rust Path::is_absolute on unix: the path starts with a slash. -/
def pathIsAbsolute (s : String) : Bool := strStartsWith s "/"

/-- Model of Rust Path::parent for paths free of dot components: none for
the root or the empty path, the text before the final slash otherwise
(the root when the final slash is the leading one, the empty string for a
bare relative file name). -/
def pathParent (s : String) : Option String :=
  if s = "/" || s = "" then none
  else
    let cs := s.toList
    let pre := (cs.reverse.dropWhile (fun c => c ≠ '/')).reverse
    match pre with
    | [] => some ""
    | ['/'] => some "/"
    | l => some (String.mk (l.dropLast))

/-- Model of Rust Path::file_name for paths free of dot components: the
last nonempty slash-separated component, or the empty result mapped to
the empty string as the source does with unwrap_or. -/
def pathFileName (s : String) : String :=
  match ((s.toList.splitOnP (fun c => c = '/')).filter (fun l => l ≠ [])).getLast? with
  | none => ""
  | some l => String.mk l

/-- Helper used by the decoder: splits the byte region at the first NUL.
Returns the bytes before the NUL and the remainder (beginning with the
NUL when one exists). -/
def splitAtNul (bytes : List Nat) : List Nat × List Nat :=
  (bytes.takeWhile (fun b => b ≠ 0), bytes.dropWhile (fun b => b ≠ 0))

/--
Argv region of the buffer (the c < n_args loop, lines 469-478): consume
at most n NUL-terminated strings; a trailing run without a terminating
NUL is abandoned together with the rest of the region, matching the Rust
loop which exits at the end of the buffer without pushing the partial
string and leaves cp at the end.  Returns the strings and the unconsumed
remainder.
-/
def takeCmd : Nat → List Nat → List String × List Nat
  | 0, bytes => ([], bytes)
  | _ + 1, [] => ([], [])
  | n + 1, bytes =>
    let pre := (splitAtNul bytes).1
    match (splitAtNul bytes).2 with
    | [] => ([], [])
    | _ :: rest =>
      let r := takeCmd n rest
      (bytesToString pre :: r.1, r.2)

/--
Envp region of the buffer (get_environ, lines 491-514): NUL-terminated
strings are collected until an empty string (the cp == start break, i.e.
two consecutive NULs), or until the buffer ends; a final run without a
terminating NUL is dropped.
-/
def scanEnvGo : Nat → List Nat → List String
  | 0, _ => []
  | fuel + 1, bytes =>
    let pre := (splitAtNul bytes).1
    match (splitAtNul bytes).2 with
    | [] => []
    | _ :: rest =>
      if pre = [] then []
      else bytesToString pre :: scanEnvGo fuel rest

/-- Wrapper supplying the fuel (the byte count always suffices, as each
entry consumes at least its terminating NUL). -/
def scanEnvEntries (bytes : List Nat) : List String :=
  scanEnvGo bytes.length bytes

/--
Embedding of do_something (lines 483-488): the callback run on each envp
entry while the inferred root is still unset; the first entry starting
with the five characters P A T H = sets the root to the entry text after
its first SIX characters and clears the check flag.  The accumulator
carries (root, check).
-/
def do_something (env : String) (acc : String × Bool) : String × Bool :=
  if acc.2 && strStartsWith env "PATH=" then (strDrop env 6, false) else acc

/-- The root value produced by folding do_something over the decoded envp
entries, starting from an empty root with the check flag set, exactly as
get_environ does when handed the do_something callback. -/
def rootFromEnviron (environ : List String) : String :=
  (environ.foldl (fun a e => do_something e a) ("", true)).1

/-- Little-endian signed 32-bit read of the first four bytes (the memcpy
of n_args at lines 445-449). -/
def readI32LE (bytes : List Nat) : Int :=
  let u : Nat := (bytes.getD 0 0) + (bytes.getD 1 0) * 256 +
    (bytes.getD 2 0) * 65536 + (bytes.getD 3 0) * 16777216
  if u < 2 ^ 31 then (u : Int) else (u : Int) - 2 ^ 32

/-- Finite-or-not model of an IEEE float value: some q is a finite value
of exact magnitude q (rounding abstracted), none is NaN or an infinity. -/
abbrev NFloat := Option ℚ

/-- Model of the IEEE division of two integer-valued finite operands, as
in the tick computations: dividing by zero yields a non-finite value
(NaN when the numerator is also zero, an infinity otherwise), modelled
as none; otherwise the exact quotient. -/
def nfDivInt (a b : Int) : NFloat :=
  if b = 0 then none else some ((a : ℚ) / (b : ℚ))

/-- IEEE addition as this development needs it: a non-finite operand makes
the result non-finite, finite operands add exactly. -/
def nfAdd : NFloat → NFloat → NFloat
  | some a, some b => some (a + b)
  | _, _ => none

/-- Division of an accumulated value by a core count. -/
def nfDivNat (a : NFloat) (n : Nat) : NFloat :=
  match a with
  | some q => if n = 0 then none else some (q / (n : ℚ))
  | none => none

/-- Scaling of a stored usage value to percent. -/
def nfScale100 : NFloat → NFloat
  | some q => some (q * 100)
  | none => none

/-- Modelled from the spec: the ProcessDescriptor record of section 3.
The Rust Process struct lives in the missing sys::process module; only
its use sites appear in system.rs, and the field names follow those use
sites.  The updated field is the touched marker of the liveness sweep
(spec 4.4), old_utime and old_stime hold the previous cumulative CPU
counter and its sampling timestamp (spec 4.2). -/
structure Process where
  pid : Int
  parent : Option Int
  start_time : Nat
  exe : String
  name : String
  cmd : List String
  environ : List String
  root : String
  memory : Nat
  virtual_memory : Nat
  uid : Nat
  gid : Nat
  process_status : Nat
  status : Option Nat
  old_utime : Nat
  old_stime : Nat
  cpu_usage : NFloat
  updated : Bool
  deriving DecidableEq

/-- Modelled from the spec: Process::new (missing sys::process), the
minimal descriptor carrying only identity and start time.  A freshly
created descriptor counts as touched in the cycle that created it, since
spec 4.4 keeps touched-new entries at the sweep. -/
def Process.new (pid : Int) (parent : Option Int) (start_time : Nat) : Process :=
  { pid := pid, parent := parent, start_time := start_time, exe := "",
    name := "", cmd := [], environ := [], root := "", memory := 0,
    virtual_memory := 0, uid := 0, gid := 0, process_status := 0,
    status := none, old_utime := 0, old_stime := 0, cpu_usage := some 0,
    updated := true }

/-- Modelled from the spec: Process::new_with (missing sys::process), the
descriptor built by the textual fallback path with path, name and
command but no environment. -/
def Process.new_with (pid : Int) (parent : Option Int) (start_time : Nat)
    (exe : String) (name : String) (cmd : List String) : Process :=
  { Process.new pid parent start_time with exe := exe, name := name, cmd := cmd }

/-- Modelled from the spec: Process::new_with2 (missing sys::process), the
fully decoded descriptor with environment and inferred root. -/
def Process.new_with2 (pid : Int) (parent : Option Int) (start_time : Nat)
    (exe : String) (name : String) (cmd : List String)
    (environ : List String) (root : String) : Process :=
  { Process.new pid parent start_time with
      exe := exe, name := name, cmd := cmd, environ := environ, root := root }

/-- Modelled from the spec: compute_cpu_usage (missing sys::process),
spec 4.2: per-process usage is the cumulative counter delta over the
clock delta times 100, never negative (a counter or clock regression and
a zero clock delta all yield 0); the new raw counter and timestamp are
retained and the descriptor is marked touched for the liveness sweep. -/
def compute_cpu_usage (p : Process) (time : Nat) (task_time : Nat) : Process :=
  let usage : ℚ :=
    if time ≤ p.old_stime ∨ task_time < p.old_utime then 0
    else (((task_time : ℚ) - (p.old_utime : ℚ)) * 100) /
      ((time : ℚ) - (p.old_stime : ℚ))
  { p with
      cpu_usage := some usage, old_utime := task_time,
      old_stime := time, updated := true }

/-- Modelled from the spec: force_update (missing sys::process), called at
line 319 on a descriptor whose memory reads zero.  The descriptor is
left unchanged except that its touched marker is set, so the liveness
sweep keeps it; the name refers to forcing the updated marker.  This is
the only reading under which the sweep never removes a pid of the
enumerated live set (spec section 8). -/
def force_update (p : Process) : Process := { p with updated := true }

/-- The process table: an association list from pid to descriptor (the
Rust HashMap, with an explicit entry order). -/
abbrev Table := List (Int × Process)

/-- HashMap lookup: the first entry with the given key. -/
def tableLookup : Table → Int → Option Process
  | [], _ => none
  | e :: t, pid => if e.1 = pid then some e.2 else tableLookup t pid

/-- In-place mutation of the entry with the given key (HashMap::get_mut
followed by writes through the reference). -/
def tableModify (t : Table) (pid : Int) (f : Process → Process) : Table :=
  t.map (fun e => if e.1 = pid then (e.1, f e.2) else e)

/-- Key membership test. -/
def tableHas : Table → Int → Bool
  | [], _ => false
  | e :: t, pid => if e.1 = pid then true else tableHas t pid

/-- HashMap::insert: replace the existing entry or add a new one. -/
def tableInsert (t : Table) (pid : Int) (p : Process) : Table :=
  if tableHas t pid then
    t.map (fun e => if e.1 = pid then (pid, p) else e)
  else t ++ [(pid, p)]

/-- Result of the PROC_PIDTHREADINFO query. -/
structure ThreadInfoRes where
  user_time : Nat
  system_time : Nat
  run_state : Nat
  deriving DecidableEq

/-- Result of the PROC_PIDTASKINFO query. -/
structure TaskInfo where
  resident : Nat
  virtualSize : Nat
  total_user : Nat
  total_system : Nat
  deriving DecidableEq

/-- Result of the PROC_PIDTASKALLINFO query. -/
structure TaskAllInfo where
  ppid : Int
  start_tvsec : Nat
  uid : Nat
  gid : Nat
  statusCode : Nat
  resident : Nat
  virtualSize : Nat
  deriving DecidableEq

/-- Outcomes of the kernel and subprocess queries one update_process call
performs for one pid (the external collaborators of spec section 6).
none models the failing outcome of the corresponding call. -/
structure ProcOracle where
  threadinfo : Option ThreadInfoRes
  taskinfo : Option TaskInfo
  time : Nat
  taskallinfo : Option TaskAllInfo
  procargs : Option (List Nat)
  ps_output : Option String

/-- Replace the last collected command token by itself with newlines
removed (lines 367-369). -/
def setLastReplaceNl (l : List String) : List String :=
  match l.getLast? with
  | none => []
  | some x => l.dropLast ++ [stripNewlines x]

/-- Parse of the /bin/ps fallback output (lines 360-387): split the
stdout on spaces, drop empty tokens, require at least two tokens,
quote-merge the command tokens, strip newlines from the last token and
from the parent pid text, parse the parent pid in base ten, and build
the descriptor via Process::new_with (start time zero).  String.toInt?
stands for i32::from_str_radix; concrete inputs in this development stay
inside the digits-only common ground of the two parsers. -/
def parse_ps_output (pid : Int) (out : String) : Except Unit Process :=
  let toks := (strSplitSpaces out).filter (fun s => s ≠ "")
  if toks.length < 2 then .error ()
  else
    let command := setLastReplaceNl (parse_command_line (toks.drop 1))
    match (stripNewlines (toks.headD "")).toInt? with
    | none => .error ()
    | some pp =>
      let exe := command.headD ""
      let name := pathFileName exe
      .ok (Process.new_with pid (if pp = 0 then none else some pp) 0 exe name command)

/-- Decode of the KERN_PROCARGS2 buffer (lines 444-538): with a buffer
longer than the four header bytes, read argc, the NUL-terminated
executable path, skip the NUL padding run, consume at most argc argv
strings, scan the envp region, and infer the root: the parent directory
of an absolute executable path, otherwise the envp fold with the
do_something callback; a buffer not longer than the header instead
yields the minimal descriptor (the else branch at line 537). -/
def decode_proc_args (pid : Int) (parent : Option Int) (start_tvsec : Nat)
    (buf : List Nat) : Process :=
  if 4 < buf.length then
    let nArgs : Int := readI32LE buf
    let afterHeader := buf.drop 4
    let exe := bytesToString ((splitAtNul afterHeader).1)
    let name := pathFileName exe
    let afterExe := ((splitAtNul afterHeader).2).dropWhile (fun b => b = 0)
    let r := takeCmd nArgs.toNat afterExe
    let environ := scanEnvEntries r.2
    let root : String :=
      if pathIsAbsolute exe then
        match pathParent exe with
        | some par => par
        | none => rootFromEnviron environ
      else rootFromEnviron environ
    Process.new_with2 pid parent start_tvsec exe name
      (parse_command_line r.1) environ root
  else Process.new pid parent start_tvsec

/-- Embedding of update_process (lines 288-549).  Returns the call result
(error for the two bail-outs, Ok none when an existing entry was mutated
in place, Ok some for a freshly built descriptor the caller inserts) and
the table as left by the in-place mutations through get_mut. -/
def update_process (o : ProcOracle) (t : Table) (pid : Int) :
    Except Unit (Option Process) × Table :=
  let userTime : Nat := match o.threadinfo with
    | some ti => ti.user_time
    | none => 0
  let sysTime : Nat := match o.threadinfo with
    | some ti => ti.system_time
    | none => 0
  let threadStatus : Option Nat := match o.threadinfo with
    | some ti => some ti.run_state
    | none => none
  match tableLookup t pid with
  | some p =>
    if p.memory = 0 then
      (.ok none, tableModify t pid force_update)
    else
      let t1 := tableModify t pid (fun q => { q with status := threadStatus })
      match o.taskinfo with
      | none => (.error (), t1)
      | some ti =>
        let task_time := userTime + sysTime + ti.total_user + ti.total_system
        let t2 := tableModify t1 pid (fun q =>
          let q1 := compute_cpu_usage q o.time task_time
          { q1 with
              memory := ti.resident >>> 10,
              virtual_memory := ti.virtualSize >>> 10 })
        (.ok none, t2)
  | none =>
    match o.taskallinfo with
    | none =>
      match o.ps_output with
      | none => (.error (), t)
      | some out =>
        match parse_ps_output pid out with
        | .error _ => (.error (), t)
        | .ok p => (.ok (some p), t)
    | some tai =>
      let parent : Option Int := if tai.ppid = 0 then none else some tai.ppid
      match o.procargs with
      | none => (.error (), t)
      | some buf =>
        let p0 := decode_proc_args pid parent tai.start_tvsec buf
        let p := { p0 with
                     memory := tai.resident >>> 10,
                     virtual_memory := tai.virtualSize >>> 10,
                     uid := tai.uid, gid := tai.gid,
                     process_status := tai.statusCode }
        (.ok (some p), t)

/-- Outcomes of the host-level queries one refresh_processes call
performs: the probe count of line 837, the probe count inside
get_proc_list, the enumeration buffer content, the second return value,
and the per-pid oracles. -/
structure SysOracle where
  count1 : Int
  count2 : Int
  pidsArr : List Int
  x : Int
  perPid : Int → ProcOracle

/-- Embedding of get_proc_list (lines 551-571): probe the pid count,
treat a probe below 1 as failure, fill a buffer of that many entries,
and accept the second return x only when it is at least 1 and strictly
below the buffer length (the x as usize >= pids.len() test); the
accepted list is the first x entries. -/
def get_proc_list (o : SysOracle) : Option (List Int) :=
  if o.count2 < 1 then none
  else
    let pids := o.pidsArr.take o.count2.toNat
    if o.x < 1 ∨ pids.length ≤ o.x.toNat then none
    else some (pids.take o.x.toNat)

/-- Modelled from the spec: DiskType (missing sys::disk), the coarse tag
for a volume.  The source constructs SSD, Unknown with code -1 for RAID
members, and Unknown with code -2 for names absent from the index. -/
inductive DiskType where
  | SSD
  | HDD
  | Unknown (code : Int)
  deriving DecidableEq

/-- Modelled from the spec: the Disk record (missing sys::disk), reduced
to the fields the embedded code constructs: name, mount point, type. -/
structure Disk where
  dname : String
  mount : String
  dtype : DiskType
  deriving DecidableEq

/-- Modelled from the spec: the ProcessorSnapshot record (missing
sys::processor): label, derived usage, and the retained raw tick array
snapshot (the ProcessorData shared via Arc). -/
structure Processor where
  pname : String
  cpu_usage : NFloat
  data : List Int
  deriving DecidableEq

/-- The System snapshot struct (lines 114-128).  Fields whose content no
claim inspects (network, temperatures, connection, port) are carried as
opaque placeholders so frame properties can mention them. -/
structure System where
  process_list : Table
  mem_total : Nat
  mem_free : Nat
  swap_total : Nat
  swap_free : Nat
  processors : List Processor
  page_size_kb : Nat
  temperatures : Nat
  connection : Option Nat
  disks : List Disk
  network : Nat
  uptime : Nat
  port : Nat
  deriving DecidableEq

/-- Embedding of System::clear_procs (lines 614-625) together with the
modelled has_been_updated (missing sys::process), which reads and clears
the touched marker: every entry whose marker was not set during the
cycle is dropped, and every survivor is left with a cleared marker. -/
def clear_procs (t : Table) : Table :=
  (t.filter (fun e => e.2.updated)).map (fun e => (e.1, { e.2 with updated := false }))

/-- The fan-out phase of refresh_processes (lines 847-866): each pid of
the enumerated list is processed by update_process against the shared
table and freshly built descriptors are collected for the merge phase.
The data-parallel iteration is modelled sequentially, which is faithful
because each unit reads and writes only its own key. -/
def run_pids (perPid : Int → ProcOracle) (pids : List Int) (t : Table)
    (acc : List Process) : Table × List Process :=
  match pids with
  | [] => (t, acc)
  | pid :: rest =>
    let r := update_process (perPid pid) t pid
    run_pids perPid rest r.2
      (match r.1 with
       | .ok (some p) => acc ++ [p]
       | _ => acc)

/-- The merge phase of refresh_processes (lines 867-869): every
collected descriptor is inserted under its own pid. -/
def insertEntries (t : Table) (es : List Process) : Table :=
  es.foldl (fun t p => tableInsert t p.pid p) t

/-- Embedding of refresh_processes (lines 836-872): abort when the probe
reports fewer than one pid or the enumeration yields no usable list;
otherwise run every enumerated pid, merge the collected descriptors into
the table, and run the liveness sweep. -/
def refresh_processes (o : SysOracle) (s : System) : System :=
  if o.count1 < 1 then s
  else
    match get_proc_list o with
    | none => s
    | some pids =>
      let r := run_pids o.perPid pids s.process_list []
      { s with process_list := clear_procs (insertEntries r.1 r.2) }

/-- Read of the flat tick array at an offset (the cpu_info pointer
reads; a read outside the supplied array is modelled as 0). -/
def arrGet (l : List Int) (i : Nat) : Int := l.getD i 0

/-- Modelled from the spec: tick-state offsets (missing sys::ffi), fixed
to the Mach values the bindings re-export; the spec only fixes the flat
layout core_index times STATE_WIDTH plus state_offset. -/
def CPU_STATE_USER : Nat := 0

/-- Modelled from the spec: see CPU_STATE_USER. -/
def CPU_STATE_SYSTEM : Nat := 1

/-- Modelled from the spec: see CPU_STATE_USER. -/
def CPU_STATE_IDLE : Nat := 2

/-- Modelled from the spec: see CPU_STATE_USER. -/
def CPU_STATE_NICE : Nat := 3

/-- Modelled from the spec: see CPU_STATE_USER. -/
def CPU_STATE_MAX : Nat := 4

/-- Tick deltas of one core between the retained snapshot and the fresh
array (lines 795-808): in_use sums the user, system and nice deltas. -/
def coreInUse (old new : List Int) (i : Nat) : Int :=
  (arrGet new (CPU_STATE_MAX * i + CPU_STATE_USER) -
    arrGet old (CPU_STATE_MAX * i + CPU_STATE_USER)) +
  (arrGet new (CPU_STATE_MAX * i + CPU_STATE_SYSTEM) -
    arrGet old (CPU_STATE_MAX * i + CPU_STATE_SYSTEM)) +
  (arrGet new (CPU_STATE_MAX * i + CPU_STATE_NICE) -
    arrGet old (CPU_STATE_MAX * i + CPU_STATE_NICE))

/-- total adds the idle delta to in_use (lines 809-814). -/
def coreTotal (old new : List Int) (i : Nat) : Int :=
  coreInUse old new i +
  (arrGet new (CPU_STATE_MAX * i + CPU_STATE_IDLE) -
    arrGet old (CPU_STATE_MAX * i + CPU_STATE_IDLE))

/-- The f32 quotient in_use over total handed to the processor entry at
line 817, in the finite-or-not model: none whenever total is zero. -/
def coreUsageValue (old new : List Int) (i : Nat) : NFloat :=
  nfDivInt (coreInUse old new i) (coreTotal old new i)

/-- Modelled from the spec: create_proc (missing sys::processor), a fresh
entry with the given label and tick snapshot and a zero usage. -/
def create_proc (nm : String) (data : List Int) : Processor :=
  { pname := nm, cpu_usage := some 0, data := data }

/-- Modelled from the spec: update_proc (missing sys::processor) stores
the computed quotient scaled to percent (spec 4.2 fixes the usage as the
delta quotient times 100) and swaps in the fresh tick snapshot. -/
def update_proc (p : Processor) (v : NFloat) (data : List Int) : Processor :=
  { p with cpu_usage := nfScale100 v, data := data }

/-- Modelled from the spec: set_cpu_proc (missing sys::processor), the
first-cycle variant storing the quotient scaled to percent. -/
def set_cpu_proc (p : Processor) (v : NFloat) : Processor :=
  { p with cpu_usage := nfScale100 v }

/-- Modelled from the spec: set_cpu_usage (missing sys::processor) stores
the already averaged percentage on the aggregate entry unchanged. -/
def set_cpu_usage (p : Processor) (v : NFloat) : Processor :=
  { p with cpu_usage := v }

/-- Oracle for one refresh_cpu call: the HW_NCPU query outcome and the
host_processor_info outcome (the fresh flat tick array). -/
structure CpuOracle where
  numCpu : Option Nat
  hostinfo : Option (List Int)

/-- First-cycle branch of refresh_cpu (lines 739-782): push the
aggregate entry labelled 0 with no usage computation, then, when the
host query succeeds, one entry per core with usage computed from the
fresh array alone. -/
def refresh_cpu_init (o : CpuOracle) : List Processor :=
  let num_cpu := o.numCpu.getD 1
  let agg := create_proc "0" []
  match o.hostinfo with
  | none => [agg]
  | some ticks =>
    agg :: (List.range num_cpu).map (fun i =>
      let inUse : Int := arrGet ticks (CPU_STATE_MAX * i + CPU_STATE_USER) +
        arrGet ticks (CPU_STATE_MAX * i + CPU_STATE_SYSTEM) +
        arrGet ticks (CPU_STATE_MAX * i + CPU_STATE_NICE)
      let total : Int := inUse + arrGet ticks (CPU_STATE_MAX * i + CPU_STATE_IDLE)
      set_cpu_proc (create_proc (toString (i + 1)) ticks) (nfDivInt inUse total))

/-- The per-entry step of the later-cycle branch (lines 793-820): the
usage is the delta quotient of the retained snapshot against the fresh
array at this core index, handed to update_proc together with the fresh
snapshot. -/
def updatedCore (ticks : List Int) (i : Nat) (pr : Processor) : Processor :=
  update_proc pr (coreUsageValue pr.data ticks i) ticks

/-- Later-cycle branch of refresh_cpu (lines 783-828): every entry after
the aggregate is updated from its retained snapshot and the fresh array,
the updated usages are accumulated, and when at least one core entry
exists the aggregate usage is set to the accumulated sum divided by the
core count. -/
def refresh_cpu_update (procs : List Processor) (ticks : List Int) : List Processor :=
  match procs with
  | [] => []
  | agg :: cores =>
    let updated := (cores.enum).map (fun pr => updatedCore ticks pr.1 pr.2)
    let pourcent := updated.foldl (fun acc pr => nfAdd acc pr.cpu_usage) (some 0)
    if 0 < cores.length then
      set_cpu_usage agg (nfDivNat pourcent cores.length) :: updated
    else
      agg :: updated

/-- Embedding of refresh_cpu (lines 729-830), restricted to the
processor table: the empty table takes the first-cycle branch; otherwise
a successful host query drives the delta update and a failing one leaves
the table untouched. -/
def refresh_cpu (o : CpuOracle) (procs : List Processor) : List Processor :=
  if procs.isEmpty then refresh_cpu_init o
  else
    match o.hostinfo with
    | none => procs
    | some ticks => refresh_cpu_update procs ticks

/-- The disk-type index published by the classification cache. -/
abbrev DiskTable := List (String × DiskType)

/-- One call to Syncer::get_disk_types (lines 40-52): when the cell is
unset, run the external enumeration and publish its result (an empty
table when the enumeration failed); then read the published cell.  The
returned flag records whether this call ran the enumeration. -/
def syncer_call (enumResult : DiskTable) (st : Option DiskTable) :
    Option DiskTable × DiskTable × Bool :=
  match st with
  | none => (some enumResult, enumResult, true)
  | some t => (some t, t, false)

/-- A sequence of consultations of the cache in one process lifetime,
starting from the unset cell: the final cell, the tables the calls
observed in order, and how many calls ran the enumeration. -/
def syncer_trace (enumResult : DiskTable) : Nat → Option DiskTable × List DiskTable × Nat
  | 0 => (none, [], 0)
  | n + 1 =>
    let r := syncer_trace enumResult n
    let c := syncer_call enumResult r.1
    (c.1, r.2.1 ++ [c.2.1], r.2.2 + (if c.2.2 then 1 else 0))

/-- Lookup in the published index as get_disks performs it (lines
226-229): a name absent from the table yields the distinguishing
not-indexed tag Unknown (-2). -/
def diskTypeFor (table : DiskTable) (nm : String) : DiskType :=
  match table.lookup nm with
  | some ty => ty
  | none => DiskType.Unknown (-2)

/-- One /Volumes directory entry as the read_dir collaborator reports
it: the file name and the resolved mount point (empty when realpath
fails). -/
structure VolumeEntry where
  vname : String
  vmount : String

/-- Embedding of get_disks (lines 216-238): consult the cache, then map
the volume entries, skipping entries whose resolved mount point is
empty and tagging each remaining one through the index lookup. -/
def get_disks (enumResult : DiskTable) (st : Option DiskTable)
    (vols : List VolumeEntry) : Option DiskTable × List Disk :=
  let c := syncer_call enumResult st
  (c.1, vols.filterMap (fun v =>
    if v.vmount = "" then none
    else some { dname := v.vname, mount := v.vmount, dtype := diskTypeFor c.2.1 v.vname }))

/-- The 64-bit wrap modulus. -/
def M64 : Nat := 2 ^ 64

/-- Wrapping u64 subtraction. -/
def wsub64 (a b : Nat) : Nat := (a % M64 + (M64 - b % M64)) % M64

/-- Wrapping u64 multiplication. -/
def wmul64 (a b : Nat) : Nat := (a * b) % M64

/-- Wrapping u64 addition. -/
def wadd64 (a b : Nat) : Nat := (a + b) % M64

/-- Result of the HOST_VM_INFO64 statistics query. -/
structure VMStats where
  active : Nat
  inactive : Nat
  wire : Nat
  speculative : Nat
  purgeable : Nat

/-- Outcomes of the host queries one refresh_memory call performs. -/
structure MemOracle where
  uptimeNow : Nat
  swap : Option (Nat × Nat)
  memsize : Option Nat
  vm : Option VMStats

/-- Embedding of refresh_memory (lines 649-705): always refresh uptime;
on swap query success store the totals shifted to kibibytes; fetch the
total physical memory only when the stored total is below 1 (a failing
fetch leaves the zero in place before the shift); on VM statistics
success derive free memory from the page counts with wrapping 64-bit
arithmetic. -/
def refresh_memory (o : MemOracle) (s : System) : System :=
  let s1 := { s with uptime := o.uptimeNow }
  let s2 := match o.swap with
    | some sw => { s1 with swap_total := sw.1 >>> 10, swap_free := sw.2 >>> 10 }
    | none => s1
  let s3 := if s2.mem_total < 1 then
      { s2 with mem_total := (match o.memsize with
          | some v => v
          | none => s2.mem_total) >>> 10 }
    else s2
  match o.vm with
  | none => s3
  | some st =>
    let used := wmul64 (wsub64 (wadd64 (wadd64 (wadd64 st.active st.inactive)
      st.wire) st.speculative) st.purgeable) s3.page_size_kb
    { s3 with mem_free := wsub64 s3.mem_total used }

/-! Concrete fixtures used by counterexamples and witnesses. -/

/-- A table entry with nonzero resident memory and a clear marker. -/
def fxProcMem1 : Process :=
  { Process.new 1 none 5 with
      memory := 1, updated := false, exe := "old" }

/-- A table entry with zero resident memory (permission denied on the
last read) and a clear marker. -/
def fxProcMem0 : Process :=
  { Process.new 1 none 5 with
      memory := 0, updated := false, exe := "old" }

/-- A well-formed argument buffer: argc 1, absolute executable path
new under the root, one argv string, empty envp. -/
def fxBufNew : List Nat :=
  [1, 0, 0, 0] ++ [47, 110, 101, 119] ++ [0] ++ [110, 101, 119, 0] ++ [0]

/-- A per-pid oracle on which every query fails. -/
def fxOracleFail : ProcOracle :=
  { threadinfo := none, taskinfo := none, time := 0, taskallinfo := none,
    procargs := none, ps_output := none }

/-- A successful PROC_PIDTASKALLINFO outcome. -/
def fxTaskAll : TaskAllInfo :=
  { ppid := 0, start_tvsec := 7, uid := 1, gid := 2,
    statusCode := 3, resident := 2048, virtualSize := 4096 }

/-- A per-pid oracle on which the full-decode path succeeds: the
taskallinfo query and the argument buffer query both return data. -/
def fxOracleFull : ProcOracle :=
  { threadinfo := none, taskinfo := none, time := 0,
    taskallinfo := some fxTaskAll, procargs := some fxBufNew,
    ps_output := none }

/-- A host oracle enumerating exactly pid 1 (the probes report two pids
and the second stage accepts one, the only accepted shape). -/
def fxSysOracle (po : ProcOracle) : SysOracle :=
  { count1 := 2, count2 := 2, pidsArr := [1, 2], x := 1, perPid := fun _ => po }

/-- A snapshot carrying the given process table. -/
def fxSystem (t : Table) : System :=
  { process_list := t, mem_total := 0, mem_free := 0, swap_total := 0,
    swap_free := 0, processors := [], page_size_kb := 4, temperatures := 0,
    connection := none, disks := [], network := 0, uptime := 0, port := 0 }

/-- A snapshot whose total memory is already known. -/
def fxSystemMem : System := { fxSystem [] with mem_total := 77 }

/-- A memory oracle on which every query succeeds. -/
def fxMemOracle : MemOracle :=
  { uptimeNow := 11, swap := some (2048, 1024), memsize := some 123456,
    vm := some { active := 1, inactive := 2, wire := 3, speculative := 4,
                 purgeable := 1 } }

/-- A host oracle whose first probe already fails. -/
def fxEnumFail : SysOracle :=
  { count1 := 0, count2 := 0, pidsArr := [], x := 0, perPid := fun _ => fxOracleFail }

/-! Claim C10. -/

/-- C10: refresh_memory fetches the total-physical-memory counter only
when the stored total is below 1: for every state whose mem_total is
already nonzero, a call leaves mem_total unchanged and modifies only the
swap totals, the free memory and the uptime fields (every other field of
the snapshot is preserved). -/
theorem c10_mem_total_frame (o : MemOracle) (s : System) (h : s.mem_total ≠ 0) :
    (refresh_memory o s).mem_total = s.mem_total ∧
    (refresh_memory o s).process_list = s.process_list ∧
    (refresh_memory o s).processors = s.processors ∧
    (refresh_memory o s).page_size_kb = s.page_size_kb ∧
    (refresh_memory o s).temperatures = s.temperatures ∧
    (refresh_memory o s).connection = s.connection ∧
    (refresh_memory o s).disks = s.disks ∧
    (refresh_memory o s).network = s.network ∧
    (refresh_memory o s).port = s.port := by
  unfold refresh_memory
  have h1 : ¬ s.mem_total < 1 := by omega
  rcases h2 : o.swap with _ | sw <;> rcases h3 : o.vm with _ | vmst <;>
    simp [h1, h2, h3]

/-- C10 witness: the frame theorem applied at a concrete snapshot with a
nonzero stored total and an oracle on which every query succeeds. -/
theorem c10_mem_total_frame_witness :
    fxSystemMem.mem_total ≠ 0 ∧
    (refresh_memory fxMemOracle fxSystemMem).mem_total = fxSystemMem.mem_total :=
  ⟨by decide, (c10_mem_total_frame fxMemOracle fxSystemMem (by decide)).1⟩

/-! Claim C8. -/

/-- C8: whenever the pid enumeration fails (the probe reports fewer than
one pid, or the second-stage retrieval yields no usable list),
refresh_processes is a no-op: the snapshot, its process table included,
is exactly what it was before the call, and the call returns normally
(the embedding is a total function). -/
theorem c8_noop_on_enum_failure (o : SysOracle) (s : System)
    (h : o.count1 < 1 ∨ get_proc_list o = none) :
    refresh_processes o s = s := by
  unfold refresh_processes
  rcases h with h | h
  · simp [h]
  · by_cases h1 : o.count1 < 1 <;> simp [h1, h]

/-- C8 witness: the no-op theorem applied at a concrete snapshot and a
host oracle whose probe reports zero pids. -/
theorem c8_noop_on_enum_failure_witness :
    fxEnumFail.count1 < 1 ∧
    refresh_processes fxEnumFail fxSystemMem = fxSystemMem :=
  ⟨by decide,
    c8_noop_on_enum_failure fxEnumFail fxSystemMem (Or.inl (by decide))⟩

/-! Claim C9. -/

/-- A key absent from the key list of an association table is not found
by lookup. -/
theorem lookup_eq_none_of_not_mem (table : DiskTable) (nm : String)
    (h : nm ∉ table.map Prod.fst) : table.lookup nm = none := by
  induction table with
  | nil => rfl
  | cons e t ih =>
    simp only [List.map_cons, List.mem_cons] at h
    push_neg at h
    have hb : (nm == e.1) = false := by
      rw [beq_eq_false_iff_ne]
      exact h.1
    simp [List.lookup, hb, ih h.2]

/-- The cache cell after n consultations: still unset for n = 0, and the
published enumeration result from the first consultation on. -/
theorem syncer_trace_cell (e : DiskTable) (n : Nat) :
    (syncer_trace e n).1 = if n = 0 then none else some e := by
  induction n with
  | zero => rfl
  | succ n ih =>
    simp only [syncer_trace, ih]
    by_cases h : n = 0 <;> simp [h, syncer_call]

/-- The number of consultations that ran the enumeration: none before
the first call, exactly one from then on. -/
theorem syncer_trace_invocations (e : DiskTable) (n : Nat) :
    (syncer_trace e n).2.2 = if n = 0 then 0 else 1 := by
  induction n with
  | zero => rfl
  | succ n ih =>
    have hc := syncer_trace_cell e n
    by_cases h : n = 0
    · simp [h] at hc ih ⊢
      simp [syncer_trace, ih, hc, syncer_call]
    · simp [h] at hc ih ⊢
      simp [syncer_trace, ih, hc, syncer_call]

/-- Every consultation observes the published enumeration result. -/
theorem syncer_trace_observed (e : DiskTable) (n : Nat) :
    ∀ t ∈ (syncer_trace e n).2.1, t = e := by
  induction n with
  | zero => simp [syncer_trace]
  | succ n ih =>
    intro t ht
    simp only [syncer_trace] at ht
    rw [syncer_trace_cell e n] at ht
    by_cases hn : n = 0
    · rw [if_pos hn] at ht
      simp only [syncer_call] at ht
      rcases List.mem_append.mp ht with h | h
      · exact ih t h
      · simpa using h
    · rw [if_neg hn] at ht
      simp only [syncer_call] at ht
      rcases List.mem_append.mp ht with h | h
      · exact ih t h
      · simpa using h

/-- C9: across any number of consultations of the disk-type cache in one
process lifetime the external device enumeration runs at most once;
every consultation observes the same published table (the empty table
included, when the enumeration failed); and the get_disks lookup of a
name absent from the published table yields the distinguishing
not-indexed tag Unknown (-2) rather than an error. -/
theorem c9_enumeration_once (e : DiskTable) (n : Nat) (nm : String)
    (h : nm ∉ e.map Prod.fst) :
    (syncer_trace e n).2.2 ≤ 1 ∧
    (∀ t ∈ (syncer_trace e n).2.1, t = e) ∧
    diskTypeFor e nm = DiskType.Unknown (-2) := by
  refine ⟨?_, syncer_trace_observed e n, ?_⟩
  · rw [syncer_trace_invocations]
    split <;> omega
  · unfold diskTypeFor
    rw [lookup_eq_none_of_not_mem e nm h]

/-- C9 witness: three consultations of a one-entry index and the lookup
of a name the index does not carry. -/
theorem c9_enumeration_once_witness :
    "other" ∉ ([("disk0", DiskType.SSD)] : DiskTable).map Prod.fst ∧
    (syncer_trace [("disk0", DiskType.SSD)] 3).2.2 ≤ 1 ∧
    diskTypeFor [("disk0", DiskType.SSD)] "other" = DiskType.Unknown (-2) :=
  ⟨by decide,
    (c9_enumeration_once [("disk0", DiskType.SSD)] 3 "other" (by decide)).1,
    (c9_enumeration_once [("disk0", DiskType.SSD)] 3 "other" (by decide)).2.2⟩

/-! Claim C6. -/

/-- The per-core usage exactly as the claim states it, a rational:
in_use over total, times 100, with the value 0 when total is 0. -/
def specCoreUsage (old new : List Int) (i : Nat) : ℚ :=
  if coreTotal old new i = 0 then 0
  else ((coreInUse old new i : ℚ) / (coreTotal old new i : ℚ)) * 100

/-- A core entry fixture holding an all-zero retained snapshot. -/
def fxCore : Processor := { pname := "1", cpu_usage := some 0, data := [0, 0, 0, 0] }

/-- The aggregate entry fixture as the init branch creates it. -/
def fxAgg : Processor := create_proc "0" []

/-- C6 counterexample: with identical consecutive tick arrays the
denominator is zero and the claim demands the usage 0, but the refreshed
core entry holds the non-finite value the f32 division 0/0 of line 817
produces (and the aggregate, fed from it, is non-finite too), not 0. -/
theorem c6_counterexample :
    coreTotal [0, 0, 0, 0] [0, 0, 0, 0] 0 = 0 ∧
    specCoreUsage [0, 0, 0, 0] [0, 0, 0, 0] 0 = 0 ∧
    (refresh_cpu { numCpu := none, hostinfo := some [0, 0, 0, 0] }
      [fxAgg, fxCore]).map Processor.cpu_usage = [none, none] ∧
    (none : NFloat) ≠ some (specCoreUsage [0, 0, 0, 0] [0, 0, 0, 0] 0) := by
  decide

/-- C6 amended: the value stored on a core entry by the later-cycle
update equals the spec formula (the tick-delta quotient scaled to
percent) whenever the delta denominator is nonzero; when the denominator
is zero the stored value is non-finite (NaN or an infinity, modelled
none), never the 0 the claim demands. -/
theorem c6_amended_core_usage (pr : Processor) (ticks : List Int) (i : Nat) :
    (coreTotal pr.data ticks i ≠ 0 →
      (updatedCore ticks i pr).cpu_usage = some (specCoreUsage pr.data ticks i)) ∧
    (coreTotal pr.data ticks i = 0 →
      (updatedCore ticks i pr).cpu_usage = none ∧ specCoreUsage pr.data ticks i = 0) := by
  constructor
  · intro h
    simp [updatedCore, update_proc, coreUsageValue, nfDivInt, nfScale100,
      specCoreUsage, h]
  · intro h
    simp [updatedCore, update_proc, coreUsageValue, nfDivInt, nfScale100,
      specCoreUsage, h]

/-- C6 witness: the amended theorem applied at a one-core delta with
three busy ticks and one idle tick, a nonzero denominator. -/
theorem c6_amended_core_usage_witness :
    coreTotal fxCore.data [3, 0, 1, 0] 0 ≠ 0 ∧
    (updatedCore [3, 0, 1, 0] 0 fxCore).cpu_usage
      = some (specCoreUsage fxCore.data [3, 0, 1, 0] 0) :=
  ⟨by decide, (c6_amended_core_usage fxCore [3, 0, 1, 0] 0).1 (by decide)⟩

/-! Claim C7. -/

/-- Arithmetic mean of a list of rationals, the claim reading of the
aggregate rule. -/
def specMean (l : List ℚ) : ℚ := l.sum / l.length

/-- C7 counterexample: the very first refresh_cpu cycle (the init
branch) computes per-core usages but never writes the aggregate entry,
which keeps its creation value 0; with one fully busy core the mean of
the per-core usages of that same cycle is 100. -/
theorem c7_counterexample :
    ((refresh_cpu { numCpu := some 1, hostinfo := some [1, 0, 0, 0] } []).map
      Processor.cpu_usage = [some 0, some 100]) ∧
    specMean [100] = 100 ∧ (0 : ℚ) ≠ 100 := by
  refine ⟨?_, ?_, ?_⟩
  · norm_num [refresh_cpu, refresh_cpu_init, set_cpu_proc, create_proc,
      nfDivInt, nfScale100, arrGet, CPU_STATE_MAX, CPU_STATE_USER,
      CPU_STATE_SYSTEM, CPU_STATE_NICE, CPU_STATE_IDLE, List.range_succ,
      List.range_zero, Function.comp]
  · norm_num [specMean]
  · norm_num

/-- Folding the usage accumulation over entries whose stored usages are
all finite sums the values exactly. -/
theorem fold_nfAdd_map_some (l : List Processor) (qs : List ℚ) (a : ℚ)
    (h : l.map Processor.cpu_usage = qs.map some) :
    l.foldl (fun acc pr => nfAdd acc pr.cpu_usage) (some a) = some (a + qs.sum) := by
  induction l generalizing qs a with
  | nil =>
    cases qs with
    | nil => simp
    | cons q qs => simp at h
  | cons p l ih =>
    cases qs with
    | nil => simp at h
    | cons q qs =>
      simp only [List.map_cons, List.cons.injEq] at h
      simp only [List.foldl_cons, h.1]
      rw [show nfAdd (some a) (some q) = some (a + q) from rfl,
        ih qs (a + q) h.2, List.sum_cons, add_assoc]

/-- C7 amended: on every refresh_cpu cycle after the first (the update
branch runs on a nonempty processor table) with at least one core entry,
a successful host query and finite per-core results, the aggregate entry
holds exactly the arithmetic mean of the per-core usages computed in
that same cycle.  On the very first cycle the aggregate is instead left
at its creation value 0 (see the counterexample). -/
theorem c7_amended_aggregate_mean (o : CpuOracle) (agg : Processor)
    (cores : List Processor) (ticks : List Int) (qs : List ℚ)
    (hhost : o.hostinfo = some ticks) (hne : cores ≠ [])
    (hfin : ((refresh_cpu o (agg :: cores)).drop 1).map Processor.cpu_usage
      = qs.map some) :
    ((refresh_cpu o (agg :: cores)).headD (create_proc "0" [])).cpu_usage
      = some (specMean qs) := by
  have hpos : 0 < cores.length := List.length_pos.mpr hne
  have hupd : refresh_cpu o (agg :: cores) =
      set_cpu_usage agg (nfDivNat (((cores.enum).map
          (fun pr => updatedCore ticks pr.1 pr.2)).foldl
        (fun acc pr => nfAdd acc pr.cpu_usage) (some 0)) cores.length) ::
      (cores.enum).map (fun pr => updatedCore ticks pr.1 pr.2) := by
    unfold refresh_cpu refresh_cpu_update
    simp [hhost, hpos]
  rw [hupd] at hfin ⊢
  simp only [List.drop_succ_cons, List.drop_zero] at hfin
  have hlen : cores.length = qs.length := by
    have h1 := congrArg List.length hfin
    simpa using h1
  rw [fold_nfAdd_map_some _ qs 0 hfin]
  simp only [List.headD_cons, set_cpu_usage, nfDivNat, zero_add]
  rw [if_neg (by omega)]
  simp [specMean, hlen]

/-- C7 witness: the amended theorem applied at a one-core update cycle
with three busy ticks and one idle tick. -/
theorem c7_amended_aggregate_mean_witness :
    (({ numCpu := none, hostinfo := some [3, 0, 1, 0] } : CpuOracle).hostinfo
      = some [3, 0, 1, 0]) ∧
    (([fxCore] : List Processor) ≠ []) ∧
    (((refresh_cpu { numCpu := none, hostinfo := some [3, 0, 1, 0] }
        [fxAgg, fxCore]).drop 1).map Processor.cpu_usage = [(75 : ℚ)].map some) ∧
    ((refresh_cpu { numCpu := none, hostinfo := some [3, 0, 1, 0] }
        [fxAgg, fxCore]).headD (create_proc "0" [])).cpu_usage
      = some (specMean [(75 : ℚ)]) := by
  refine ⟨rfl, by decide, ?_, ?_⟩
  · norm_num [refresh_cpu, refresh_cpu_update, updatedCore, update_proc,
      coreUsageValue, nfDivInt, nfScale100, coreInUse, coreTotal, arrGet,
      CPU_STATE_MAX, CPU_STATE_USER, CPU_STATE_SYSTEM, CPU_STATE_NICE,
      CPU_STATE_IDLE, fxCore, fxAgg, set_cpu_usage, nfDivNat, nfAdd,
      List.enum, Function.comp]
  · exact c7_amended_aggregate_mean _ fxAgg [fxCore] [3, 0, 1, 0] [(75 : ℚ)]
      rfl (by decide) (by
        norm_num [refresh_cpu, refresh_cpu_update, updatedCore, update_proc,
          coreUsageValue, nfDivInt, nfScale100, coreInUse, coreTotal, arrGet,
          CPU_STATE_MAX, CPU_STATE_USER, CPU_STATE_SYSTEM, CPU_STATE_NICE,
          CPU_STATE_IDLE, fxCore, fxAgg, set_cpu_usage, nfDivNat, nfAdd,
          List.enum, Function.comp])

/-! Claim C1. -/

/-- The buffer of the C1 scenario: argc 1, the relative executable foo,
one argv string foo, and the single envp entry PATH=/opt/x. -/
def fxBufC1 : List Nat :=
  [1, 0, 0, 0] ++ [102, 111, 111] ++ [0] ++ [102, 111, 111, 0] ++
  [80, 65, 84, 72, 61, 47, 111, 112, 116, 47, 120, 0] ++ [0]

/-- Folding do_something over entries none of which starts with the
PATH= marker leaves the accumulator unchanged. -/
theorem do_something_fold_skip (pre : List String) (acc : String × Bool)
    (hpre : ∀ s ∈ pre, strStartsWith s "PATH=" = false) :
    pre.foldl (fun a e => do_something e a) acc = acc := by
  induction pre generalizing acc with
  | nil => rfl
  | cons s t ih =>
    simp only [List.foldl_cons]
    rw [show do_something s acc = acc from by
      simp [do_something, hpre s (by simp)]]
    exact ih acc (fun x hx => hpre x (by simp [hx]))

/-- Once the check flag is cleared, the fold ignores every later entry. -/
theorem do_something_fold_done (post : List String) (r : String) :
    post.foldl (fun a e => do_something e a) (r, false) = (r, false) := by
  induction post with
  | nil => rfl
  | cons s t ih =>
    simp only [List.foldl_cons]
    rw [show do_something s (r, false) = (r, false) from by simp [do_something]]
    exact ih

/-- C1 counterexample: decoding a buffer whose executable foo is not
absolute and whose envp holds the entry PATH=/opt/x yields the root
opt/x, the entry text after its first SIX characters, not the claimed
value /opt/x (the text after the five-character PATH= marker). -/
theorem c1_counterexample :
    (decode_proc_args 1 none 0 fxBufC1).environ = ["PATH=/opt/x"] ∧
    pathIsAbsolute (decode_proc_args 1 none 0 fxBufC1).exe = false ∧
    (decode_proc_args 1 none 0 fxBufC1).root = "opt/x" ∧
    (decode_proc_args 1 none 0 fxBufC1).root ≠ "/opt/x" := by
  decide

/-- C1 amended: for a non-absolute executable the inferred root is the
text of the first envp entry starting with PATH= after that entry's
first SIX characters, one character beyond the five-character marker;
the PATH=/opt/x entry therefore yields opt/x, as the concrete decode of
the C1 buffer confirms. -/
theorem c1_amended_root_drop6 (pre post : List String) (e : String)
    (hpre : ∀ s ∈ pre, strStartsWith s "PATH=" = false)
    (he : strStartsWith e "PATH=" = true) :
    rootFromEnviron (pre ++ e :: post) = strDrop e 6 ∧
    (decode_proc_args 1 none 0 fxBufC1).root = strDrop "PATH=/opt/x" 6 := by
  constructor
  · unfold rootFromEnviron
    rw [List.foldl_append, do_something_fold_skip pre _ hpre]
    simp only [List.foldl_cons]
    rw [show do_something e ("", true) = (strDrop e 6, false) from by
      simp [do_something, he]]
    rw [do_something_fold_done]
  · decide

/-- C1 witness: the amended theorem applied to the envp list holding
exactly the entry PATH=/opt/x. -/
theorem c1_amended_root_drop6_witness :
    strStartsWith "PATH=/opt/x" "PATH=" = true ∧
    rootFromEnviron ([] ++ "PATH=/opt/x" :: []) = strDrop "PATH=/opt/x" 6 :=
  ⟨by decide,
    (c1_amended_root_drop6 [] [] "PATH=/opt/x" (by decide) (by decide)).1⟩

/-! Claim C2. -/

/-- takeWhile and dropWhile at a split point: with the predicate true on
all of l1 and false at w, takeWhile keeps exactly l1 and dropWhile
starts at w. -/
theorem takeWhile_dropWhile_split {α : Type} (p : α → Bool) (l1 : List α)
    (w : α) (l2 : List α) (h1 : ∀ x ∈ l1, p x = true) (hw : p w = false) :
    (l1 ++ w :: l2).takeWhile p = l1 ∧ (l1 ++ w :: l2).dropWhile p = w :: l2 := by
  induction l1 with
  | nil => simp [List.takeWhile, List.dropWhile, hw]
  | cons a t ih =>
    have ha : p a = true := h1 a (by simp)
    have iht := ih (fun x hx => h1 x (by simp [hx]))
    simp [List.takeWhile_cons, List.dropWhile_cons, ha, iht.1, iht.2]

/-- The fuel of the parse_command_line worker does not matter as long as
it covers the token count. -/
theorem pclGo_fuel_eq (f1 : Nat) : ∀ (f2 : Nat) (l : List String),
    l.length ≤ f1 → l.length ≤ f2 → pclGo f1 l = pclGo f2 l := by
  induction f1 with
  | zero =>
    intro f2 l h1 h2
    have : l = [] := List.length_eq_zero.mp (Nat.le_zero.mp h1)
    subst this
    cases f2 <;> rfl
  | succ f1 ih =>
    intro f2 l h1 h2
    cases l with
    | nil => cases f2 <;> rfl
    | cons t rest =>
      cases f2 with
      | zero => simp at h2
      | succ f2 =>
        simp only [List.length_cons, Nat.succ_le_succ_iff] at h1 h2
        simp only [pclGo]
        cases hq : quoteOf t with
        | none =>
          simp only []
          congr 1
          exact ih f2 rest h1 h2
        | some c =>
          simp only []
          cases hd : (t :: rest).dropWhile (fun s => !strEndsWith s c) with
          | nil => rfl
          | cons x rest2 =>
            dsimp only
            congr 1
            have hlen : rest2.length ≤ rest.length := by
              have hle := length_dropWhile_le' (fun s => !strEndsWith s c) (t :: rest)
              rw [hd] at hle
              simp only [List.length_cons] at hle
              omega
            exact ih f2 rest2 (by omega) (by omega)

/-- C2 counterexample: on the tokens of the spec example the code
produces the opening token alone: the join range excludes the token
carrying the closing quote, which is then skipped, and the quote
characters are kept, so the output is not the claimed merged argument
hello world. -/
theorem c2_counterexample :
    parse_command_line ["cmd", squoteS ++ "hello", "world" ++ squoteS]
      = ["cmd", squoteS ++ "hello"] ∧
    parse_command_line ["cmd", squoteS ++ "hello", "world" ++ squoteS]
      ≠ ["cmd", "hello world"] := by
  decide

/-- C2 amended: a token opening a quote is space-joined with the
following tokens up to but EXCLUDING the first token that ends with the
matching quote character; that closing token is consumed and dropped,
quote characters are not stripped, and parsing resumes after it.  On the
spec example the output is therefore the pair cmd and quote-hello. -/
theorem c2_amended_quote_merge (t : String) (a : List String) (w : String)
    (b : List String) (c : String) (hq : quoteOf t = some c)
    (hpre : ∀ s ∈ t :: a, strEndsWith s c = false)
    (hw : strEndsWith w c = true) :
    parse_command_line (t :: (a ++ w :: b))
      = strJoinSpace (t :: a) :: parse_command_line b ∧
    parse_command_line ["cmd", squoteS ++ "hello", "world" ++ squoteS]
      = ["cmd", strJoinSpace [squoteS ++ "hello"]] := by
  constructor
  · have hsp := takeWhile_dropWhile_split (fun s => !strEndsWith s c)
      (t :: a) w b
      (fun x hx => by show (!strEndsWith x c) = true; rw [hpre x hx]; rfl)
      (by show (!strEndsWith w c) = false; rw [hw]; rfl)
    rw [show (t :: a) ++ w :: b = t :: (a ++ w :: b) from by simp] at hsp
    unfold parse_command_line
    simp only [List.length_cons, pclGo, hq, hsp.1, hsp.2]
    congr 1
    have hble : b.length ≤ (a ++ w :: b).length := by
      simp only [List.length_append, List.length_cons]
      omega
    exact pclGo_fuel_eq _ _ b hble le_rfl
  · decide

/-- C2 witness: the amended theorem applied to the quoted pair of the
spec example. -/
theorem c2_amended_quote_merge_witness :
    quoteOf (squoteS ++ "hello") = some squoteS ∧
    strEndsWith ("world" ++ squoteS) squoteS = true ∧
    parse_command_line ((squoteS ++ "hello") :: ([] ++ ("world" ++ squoteS) :: []))
      = strJoinSpace [squoteS ++ "hello"] :: parse_command_line [] :=
  ⟨by decide, by decide,
    (c2_amended_quote_merge (squoteS ++ "hello") [] ("world" ++ squoteS) []
      squoteS (by decide) (by decide) (by decide)).1⟩

/-! Association-table lemmas shared by the refresh-cycle claims. -/

/-- The key list of a table. -/
def tableKeys (t : Table) : List Int := t.map Prod.fst

/-- Distinctness of the keys (the HashMap invariant). -/
abbrev keysNodup (t : Table) : Prop := (tableKeys t).Nodup

theorem tableLookup_modify_self (t : Table) (pid : Int) (f : Process → Process) :
    tableLookup (tableModify t pid f) pid = (tableLookup t pid).map f := by
  induction t with
  | nil => rfl
  | cons e t ih =>
    simp only [tableModify, List.map_cons] at ih ⊢
    by_cases h : e.1 = pid
    · simp [tableLookup, h]
    · simp only [if_neg h]
      simp only [tableLookup, if_neg h]
      exact ih

theorem tableLookup_modify_other (t : Table) (pid : Int) (f : Process → Process)
    (q : Int) (h : q ≠ pid) :
    tableLookup (tableModify t pid f) q = tableLookup t q := by
  induction t with
  | nil => rfl
  | cons e t ih =>
    simp only [tableModify, List.map_cons] at ih ⊢
    by_cases he : e.1 = pid
    · have : ¬ (e.1 = q) := by rw [he]; exact fun hh => h hh.symm
      simp only [if_pos he, tableLookup, this, if_neg this]
      simpa using ih
    · simp only [if_neg he, tableLookup]
      by_cases hq : e.1 = q
      · simp [hq]
      · simp only [if_neg hq]
        exact ih

theorem tableKeys_modify (t : Table) (pid : Int) (f : Process → Process) :
    tableKeys (tableModify t pid f) = tableKeys t := by
  induction t with
  | nil => rfl
  | cons e t ih =>
    simp only [tableModify, tableKeys, List.map_cons] at ih ⊢
    by_cases h : e.1 = pid
    · simp only [if_pos h, h]
      exact congrArg (pid :: ·) ih
    · simp only [if_neg h]
      exact congrArg (e.1 :: ·) ih

theorem tableLookup_eq_none_iff (t : Table) (pid : Int) :
    tableLookup t pid = none ↔ pid ∉ tableKeys t := by
  induction t with
  | nil => simp [tableLookup, tableKeys]
  | cons e t ih =>
    simp only [tableLookup, tableKeys, List.map_cons, List.mem_cons]
    by_cases h : e.1 = pid
    · simp [h]
    · simp only [if_neg h]
      rw [ih]
      constructor
      · intro hn
        rintro (h1 | h1)
        · exact h h1.symm
        · exact hn h1
      · intro hn
        exact fun h1 => hn (Or.inr h1)

theorem tableHas_eq_true_iff (t : Table) (pid : Int) :
    tableHas t pid = true ↔ pid ∈ tableKeys t := by
  induction t with
  | nil => simp [tableHas, tableKeys]
  | cons e t ih =>
    simp only [tableHas, tableKeys, List.map_cons, List.mem_cons]
    by_cases h : e.1 = pid
    · simp [h]
    · simp only [if_neg h]
      rw [ih]
      constructor
      · exact fun h1 => Or.inr h1
      · rintro (h1 | h1)
        · exact absurd h1.symm h
        · exact h1

theorem tableLookup_append_left (t1 t2 : Table) (pid : Int) (p : Process)
    (h : tableLookup t1 pid = some p) :
    tableLookup (t1 ++ t2) pid = some p := by
  induction t1 with
  | nil => simp [tableLookup] at h
  | cons e t ih =>
    simp only [tableLookup, List.cons_append] at h ⊢
    by_cases he : e.1 = pid
    · simpa [he] using h
    · simp only [if_neg he] at h ⊢
      exact ih h

theorem tableLookup_replace_other (t : Table) (pid : Int) (p : Process)
    (q : Int) (h : q ≠ pid) :
    tableLookup (t.map (fun e => if e.1 = pid then (pid, p) else e)) q
      = tableLookup t q := by
  induction t with
  | nil => rfl
  | cons e t ih =>
    simp only [List.map_cons, tableLookup]
    by_cases he : e.1 = pid
    · have hne : ¬ (e.1 = q) := by rw [he]; exact fun x => h x.symm
      have hne2 : ¬ ((pid : Int) = q) := fun x => h x.symm
      simp only [if_pos he, tableLookup, if_neg hne, if_neg hne2]
      exact ih
    · simp only [if_neg he, tableLookup]
      by_cases hq : e.1 = q
      · simp [hq]
      · simp only [if_neg hq]
        exact ih

theorem tableLookup_append_single_other (t : Table) (pid : Int) (p : Process)
    (q : Int) (h : q ≠ pid) :
    tableLookup (t ++ [(pid, p)]) q = tableLookup t q := by
  induction t with
  | nil =>
    simp only [List.nil_append, tableLookup]
    rw [if_neg (fun x : (pid : Int) = q => h x.symm)]
  | cons e t ih =>
    simp only [List.cons_append, tableLookup]
    by_cases hq : e.1 = q
    · simp [hq]
    · simp only [if_neg hq]
      exact ih

theorem tableInsert_lookup_other (t : Table) (pid : Int) (p : Process)
    (q : Int) (h : q ≠ pid) :
    tableLookup (tableInsert t pid p) q = tableLookup t q := by
  unfold tableInsert
  by_cases hh : tableHas t pid
  · rw [if_pos hh]
    exact tableLookup_replace_other t pid p q h
  · rw [if_neg hh]
    exact tableLookup_append_single_other t pid p q h

theorem tableKeys_replace (t : Table) (pid : Int) (p : Process) :
    tableKeys (t.map (fun e => if e.1 = pid then (pid, p) else e))
      = tableKeys t := by
  induction t with
  | nil => rfl
  | cons e t ih =>
    simp only [tableKeys, List.map_cons] at ih ⊢
    by_cases he : e.1 = pid
    · simp only [if_pos he, he]
      exact congrArg (pid :: ·) ih
    · simp only [if_neg he]
      exact congrArg (e.1 :: ·) ih

theorem keysNodup_insert (t : Table) (pid : Int) (p : Process)
    (h : keysNodup t) : keysNodup (tableInsert t pid p) := by
  unfold tableInsert
  by_cases hh : tableHas t pid
  · rw [if_pos hh]
    unfold keysNodup
    rw [tableKeys_replace]
    exact h
  · rw [if_neg hh]
    unfold keysNodup at h ⊢
    have hpid : pid ∉ tableKeys t := by
      intro hm
      exact hh ((tableHas_eq_true_iff t pid).mpr hm)
    have hk : tableKeys (t ++ [(pid, p)]) = tableKeys t ++ [pid] := by
      simp [tableKeys]
    rw [hk]
    rw [List.nodup_append]
    exact ⟨h, List.nodup_singleton pid, by simpa [List.disjoint_singleton] using hpid⟩

/-! clear_procs lemmas. -/

theorem clear_procs_lookup_none (t : Table) (q : Int)
    (h : tableLookup t q = none) : tableLookup (clear_procs t) q = none := by
  induction t with
  | nil => rfl
  | cons e t ih =>
    simp only [tableLookup] at h
    by_cases hq : e.1 = q
    · rw [if_pos hq] at h
      cases h
    · rw [if_neg hq] at h
      simp only [clear_procs, List.filter_cons]
      by_cases hu : e.2.updated
      · simp only [hu, if_pos, List.map_cons, tableLookup, if_neg hq]
        simpa [clear_procs] using ih h
      · simp only [hu]
        simpa [clear_procs] using ih h

theorem clear_procs_lookup_kept (t : Table) (q : Int) (p : Process)
    (h : tableLookup t q = some p) (hu : p.updated = true) :
    tableLookup (clear_procs t) q = some { p with updated := false } := by
  induction t with
  | nil => cases h
  | cons e t ih =>
    simp only [tableLookup] at h
    by_cases hq : e.1 = q
    · rw [if_pos hq] at h
      injection h with h
      subst h
      simp only [clear_procs, List.filter_cons, hu, if_pos, List.map_cons,
        tableLookup, if_pos hq]
    · rw [if_neg hq] at h
      simp only [clear_procs, List.filter_cons]
      by_cases hue : e.2.updated
      · simp only [hue, if_pos, List.map_cons, tableLookup, if_neg hq]
        simpa [clear_procs] using ih h
      · simp only [hue]
        simpa [clear_procs] using ih h

theorem clear_procs_lookup_dropped (t : Table) (q : Int) (p : Process)
    (hnd : keysNodup t) (h : tableLookup t q = some p) (hu : p.updated = false) :
    tableLookup (clear_procs t) q = none := by
  induction t with
  | nil => cases h
  | cons e t ih =>
    have hnd2 : keysNodup t := by
      unfold keysNodup tableKeys at hnd ⊢
      simp only [List.map_cons, List.nodup_cons] at hnd
      exact hnd.2
    simp only [tableLookup] at h
    by_cases hq : e.1 = q
    · rw [if_pos hq] at h
      injection h with h
      have hnone : tableLookup t q = none := by
        apply (tableLookup_eq_none_iff t q).mpr
        unfold keysNodup tableKeys at hnd
        simp only [List.map_cons, List.nodup_cons] at hnd
        rw [← hq]
        exact fun hm => hnd.1 hm
      have hdrop : e.2.updated = false := by rw [h, hu]
      simp only [clear_procs, List.filter_cons, hdrop]
      simpa [clear_procs] using clear_procs_lookup_none t q hnone
    · rw [if_neg hq] at h
      simp only [clear_procs, List.filter_cons]
      by_cases hue : e.2.updated
      · simp only [hue, if_pos, List.map_cons, tableLookup, if_neg hq]
        simpa [clear_procs] using ih hnd2 h
      · simp only [hue]
        simpa [clear_procs] using ih hnd2 h

/-! update_process lemmas. -/

/-- Both fresh-descriptor builders stamp the requested pid and the
touched marker. -/
theorem decode_proc_args_pid (pid : Int) (par : Option Int) (st : Nat)
    (buf : List Nat) :
    (decode_proc_args pid par st buf).pid = pid ∧
    (decode_proc_args pid par st buf).updated = true := by
  unfold decode_proc_args
  split <;> exact ⟨rfl, rfl⟩

theorem parse_ps_output_ok_pid (pid : Int) (out : String) (p : Process)
    (h : parse_ps_output pid out = .ok p) : p.pid = pid ∧ p.updated = true := by
  unfold parse_ps_output at h
  dsimp only at h
  split at h
  · cases h
  · split at h
    · cases h
    · injection h with h
      subst h
      exact ⟨rfl, rfl⟩

/-- update_process never changes the value stored under a different
key. -/
theorem update_process_snd_other (o : ProcOracle) (t : Table) (pid q : Int)
    (h : q ≠ pid) :
    tableLookup (update_process o t pid).2 q = tableLookup t q := by
  unfold update_process
  cases hp : tableLookup t pid with
  | none =>
    cases o.taskallinfo with
    | none =>
      cases o.ps_output with
      | none => simp
      | some out => cases hpp : parse_ps_output pid out <;> simp [hpp]
    | some tai => cases o.procargs <;> simp
  | some p =>
    by_cases hm : p.memory = 0
    · simp [hm, tableLookup_modify_other _ _ _ _ h]
    · cases o.taskinfo with
      | none => simp [hm, tableLookup_modify_other _ _ _ _ h]
      | some ti => simp [hm, tableLookup_modify_other _ _ _ _ h]

/-- update_process preserves the key list of the table. -/
theorem update_process_snd_keys (o : ProcOracle) (t : Table) (pid : Int) :
    tableKeys (update_process o t pid).2 = tableKeys t := by
  unfold update_process
  cases hp : tableLookup t pid with
  | none =>
    cases o.taskallinfo with
    | none =>
      cases o.ps_output with
      | none => simp
      | some out => cases hpp : parse_ps_output pid out <;> simp [hpp]
    | some tai => cases o.procargs <;> simp
  | some p =>
    by_cases hm : p.memory = 0
    · simp [hm, tableKeys_modify]
    · cases o.taskinfo with
      | none => simp [hm, tableKeys_modify]
      | some ti => simp [hm, tableKeys_modify]

/-- A pid absent from the table leaves the table exactly unchanged,
whatever the outcome. -/
theorem update_process_snd_of_new (o : ProcOracle) (t : Table) (pid : Int)
    (h : tableLookup t pid = none) : (update_process o t pid).2 = t := by
  unfold update_process
  rw [h]
  cases o.taskallinfo with
  | none =>
    cases o.ps_output with
    | none => rfl
    | some out => cases hpp : parse_ps_output pid out <;> simp [hpp]
  | some tai => cases o.procargs <;> rfl

/-- A fresh descriptor returned by update_process carries the requested
pid and the touched marker. -/
theorem update_process_ok_fields (o : ProcOracle) (t : Table) (pid : Int)
    (p : Process) (h : (update_process o t pid).1 = .ok (some p)) :
    p.pid = pid ∧ p.updated = true := by
  unfold update_process at h
  cases hp : tableLookup t pid with
  | none =>
    cases hta : o.taskallinfo with
    | none =>
      cases hps : o.ps_output with
      | none => simp [hp, hta, hps] at h
      | some out =>
        cases hpp : parse_ps_output pid out with
        | error e => simp [hp, hta, hps, hpp] at h
        | ok pp =>
          simp only [hp, hta, hps, hpp] at h
          injection h with h
          injection h with h
          subst h
          exact parse_ps_output_ok_pid pid out _ hpp
    | some tai =>
      cases hpa : o.procargs with
      | none => simp [hp, hta, hpa] at h
      | some buf =>
        simp only [hp, hta, hpa] at h
        injection h with h
        injection h with h
        subst h
        exact ⟨(decode_proc_args_pid pid _ _ buf).1,
          (decode_proc_args_pid pid _ _ buf).2⟩
  | some pp =>
    by_cases hm : pp.memory = 0
    · simp [hp, hm] at h
    · cases hti : o.taskinfo with
      | none => simp [hp, hm, hti] at h
      | some ti => simp [hp, hm, hti] at h

/-- An existing entry with zero resident memory is only force-marked:
the call returns no descriptor and the table keeps the entry unchanged
apart from the touched marker. -/
theorem update_process_zero_memory (o : ProcOracle) (t : Table) (pid : Int)
    (p : Process) (hp : tableLookup t pid = some p) (hm : p.memory = 0) :
    update_process o t pid = (.ok none, tableModify t pid force_update) ∧
    tableLookup (update_process o t pid).2 pid = some { p with updated := true } := by
  have h1 : update_process o t pid = (.ok none, tableModify t pid force_update) := by
    unfold update_process
    simp [hp, hm]
  refine ⟨h1, ?_⟩
  rw [h1]
  dsimp only
  rw [tableLookup_modify_self, hp]
  simp [force_update]

/-- An existing entry with nonzero memory and a successful counter read
is incrementally updated in place and left marked. -/
theorem update_process_incr_success (o : ProcOracle) (t : Table) (pid : Int)
    (p : Process) (ti : TaskInfo) (hp : tableLookup t pid = some p)
    (hm : p.memory ≠ 0) (hti : o.taskinfo = some ti) :
    (update_process o t pid).1 = .ok none ∧
    ∃ px, tableLookup (update_process o t pid).2 pid = some px ∧
      px.updated = true := by
  unfold update_process
  simp only [hp, hti, if_neg hm]
  refine ⟨trivial, ?_⟩
  rw [tableLookup_modify_self, tableLookup_modify_self, hp]
  refine ⟨_, rfl, ?_⟩
  simp [compute_cpu_usage]

/-- An existing entry whose counter read fails produces the error
outcome (only the thread status was written in place). -/
theorem update_process_incr_fail (o : ProcOracle) (t : Table) (pid : Int)
    (p : Process) (hp : tableLookup t pid = some p)
    (hm : p.memory ≠ 0) (hti : o.taskinfo = none) :
    (update_process o t pid).1 = .error () := by
  unfold update_process
  simp only [hp, hti, if_neg hm]

/-- A new pid on which the taskallinfo query and the textual fallback
both fail yields the error outcome. -/
theorem update_process_new_all_fail (o : ProcOracle) (t : Table) (pid : Int)
    (h : tableLookup t pid = none) (h1 : o.taskallinfo = none)
    (h2 : o.ps_output = none) :
    (update_process o t pid).1 = .error () := by
  unfold update_process
  simp only [h, h1, h2]

/-- A new pid with a successful taskallinfo query and a buffer no longer
than the header yields the minimal descriptor with the taskallinfo
fields applied: the decode does not fail and the fallback is not
consulted. -/
theorem update_process_short_buffer (o : ProcOracle) (t : Table) (pid : Int)
    (tai : TaskAllInfo) (buf : List Nat) (h : tableLookup t pid = none)
    (h1 : o.taskallinfo = some tai) (h2 : o.procargs = some buf)
    (h3 : buf.length ≤ 4) :
    (update_process o t pid).1 = .ok (some
      { Process.new pid (if tai.ppid = 0 then none else some tai.ppid)
          tai.start_tvsec with
          memory := tai.resident >>> 10,
          virtual_memory := tai.virtualSize >>> 10,
          uid := tai.uid, gid := tai.gid,
          process_status := tai.statusCode }) := by
  unfold update_process
  simp only [h, h1, h2]
  rw [show decode_proc_args pid (if tai.ppid = 0 then none else some tai.ppid)
      tai.start_tvsec buf
    = Process.new pid (if tai.ppid = 0 then none else some tai.ppid)
      tai.start_tvsec from by
    unfold decode_proc_args
    rw [if_neg (by omega)]]

/-! run_pids and merge-phase lemmas. -/

theorem tableLookup_mem (t : Table) (q : Int) (p : Process)
    (h : tableLookup t q = some p) : (q, p) ∈ t := by
  induction t with
  | nil => cases h
  | cons e t ih =>
    simp only [tableLookup] at h
    by_cases hq : e.1 = q
    · rw [if_pos hq] at h
      injection h with h
      have : (q, p) = e := by
        cases e
        simp only [Prod.mk.injEq]
        exact ⟨hq.symm, h.symm⟩
      rw [this]
      exact List.mem_cons_self _ _
    · rw [if_neg hq] at h
      exact List.mem_cons_of_mem _ (ih h)

theorem run_pids_keys (pp : Int → ProcOracle) (pids : List Int) :
    ∀ (t : Table) (acc : List Process),
    tableKeys (run_pids pp pids t acc).1 = tableKeys t := by
  induction pids with
  | nil => intro t acc; rfl
  | cons pid rest ih =>
    intro t acc
    simp only [run_pids]
    rw [ih]
    exact update_process_snd_keys (pp pid) t pid

theorem run_pids_lookup_notin (pp : Int → ProcOracle) (pids : List Int) :
    ∀ (t : Table) (acc : List Process) (q : Int), q ∉ pids →
    tableLookup (run_pids pp pids t acc).1 q = tableLookup t q := by
  induction pids with
  | nil => intro t acc q _; rfl
  | cons pid rest ih =>
    intro t acc q hq
    simp only [List.mem_cons, not_or] at hq
    simp only [run_pids]
    rw [ih _ _ q hq.2]
    exact update_process_snd_other (pp pid) t pid q hq.1

theorem run_pids_lookup_none (pp : Int → ProcOracle) (pids : List Int) :
    ∀ (t : Table) (acc : List Process) (q : Int), tableLookup t q = none →
    tableLookup (run_pids pp pids t acc).1 q = none := by
  induction pids with
  | nil => intro t acc q h; exact h
  | cons pid rest ih =>
    intro t acc q h
    simp only [run_pids]
    apply ih
    by_cases hq : q = pid
    · subst hq
      rw [update_process_snd_of_new (pp q) t q h]
      exact h
    · rw [update_process_snd_other (pp pid) t pid q hq]
      exact h

theorem run_pids_entries (pp : Int → ProcOracle) (pids : List Int) :
    ∀ (t : Table) (acc : List Process) (e : Process),
    e ∈ (run_pids pp pids t acc).2 → e ∈ acc ∨ e.pid ∈ pids := by
  induction pids with
  | nil => intro t acc e he; exact Or.inl he
  | cons pid rest ih =>
    intro t acc e he
    simp only [run_pids] at he
    rcases ih _ _ e he with h | h
    · cases hr : (update_process (pp pid) t pid).1 with
      | error err =>
        rw [hr] at h
        exact Or.inl h
      | ok oo =>
        cases oo with
        | none =>
          rw [hr] at h
          exact Or.inl h
        | some pnew =>
          rw [hr] at h
          rcases List.mem_append.mp h with h1 | h1
          · exact Or.inl h1
          · have hf := update_process_ok_fields (pp pid) t pid pnew hr
            have he2 : e = pnew := by simpa using h1
            subst he2
            rw [hf.1]
            exact Or.inr (List.mem_cons_self _ _)
    · exact Or.inr (List.mem_cons_of_mem _ h)

theorem run_pids_entries_ne (pp : Int → ProcOracle) (pids : List Int) :
    ∀ (t : Table) (acc : List Process) (q : Int),
    tableLookup t q = none →
    (pp q).taskallinfo = none → (pp q).ps_output = none →
    (∀ e ∈ acc, e.pid ≠ q) →
    ∀ e ∈ (run_pids pp pids t acc).2, e.pid ≠ q := by
  induction pids with
  | nil => intro t acc q _ _ _ hacc e he; exact hacc e he
  | cons pid rest ih =>
    intro t acc q hn h1 h2 hacc e he
    simp only [run_pids] at he
    have htnone : tableLookup (update_process (pp pid) t pid).2 q = none := by
      by_cases hq : q = pid
      · subst hq
        rw [update_process_snd_of_new (pp q) t q hn]
        exact hn
      · rw [update_process_snd_other (pp pid) t pid q hq]
        exact hn
    refine ih _ _ q htnone h1 h2 ?_ e he
    intro e2 he2
    cases hr : (update_process (pp pid) t pid).1 with
    | error err =>
      rw [hr] at he2
      exact hacc e2 he2
    | ok oo =>
      cases oo with
      | none =>
        rw [hr] at he2
        exact hacc e2 he2
      | some pnew =>
        rw [hr] at he2
        rcases List.mem_append.mp he2 with hm | hm
        · exact hacc e2 hm
        · have hf := update_process_ok_fields (pp pid) t pid pnew hr
          have he3 : e2 = pnew := by simpa using hm
          subst he3
          rw [hf.1]
          intro hqq
          rw [hqq] at hr
          have hq2 : q = pid := hqq.symm
          subst hq2
          rw [update_process_new_all_fail (pp q) t q hn h1 h2] at hr
          cases hr

theorem run_pids_append (pp : Int → ProcOracle) (l1 l2 : List Int) :
    ∀ (t : Table) (acc : List Process),
    run_pids pp (l1 ++ l2) t acc
      = run_pids pp l2 (run_pids pp l1 t acc).1 (run_pids pp l1 t acc).2 := by
  induction l1 with
  | nil => intro t acc; rfl
  | cons pid rest ih =>
    intro t acc
    simp only [List.cons_append, run_pids]
    exact ih _ _

theorem insertEntries_lookup_other (es : List Process) :
    ∀ (t : Table) (q : Int), (∀ e ∈ es, e.pid ≠ q) →
    tableLookup (insertEntries t es) q = tableLookup t q := by
  induction es with
  | nil => intro t q _; rfl
  | cons p rest ih =>
    intro t q h
    simp only [insertEntries, List.foldl_cons]
    have step : tableLookup (insertEntries (tableInsert t p.pid p) rest) q
        = tableLookup (tableInsert t p.pid p) q :=
      ih _ q (fun e he => h e (List.mem_cons_of_mem _ he))
    rw [show (List.foldl (fun t p => tableInsert t p.pid p)
        (tableInsert t p.pid p) rest) = insertEntries (tableInsert t p.pid p) rest
      from rfl]
    rw [step]
    exact tableInsert_lookup_other t p.pid p q
      (fun hq => (h p (List.mem_cons_self _ _)) hq.symm)

theorem insertEntries_nodup (es : List Process) :
    ∀ (t : Table), keysNodup t → keysNodup (insertEntries t es) := by
  induction es with
  | nil => intro t h; exact h
  | cons p rest ih =>
    intro t h
    simp only [insertEntries, List.foldl_cons]
    exact ih _ (keysNodup_insert t p.pid p h)
/-! Claim C4. -/

/-- C4 counterexample: a completed cycle over a table entry with zero
resident memory, on an oracle on which a full decode WOULD succeed (it
would yield the executable /new), leaves the entry byte-for-byte as it
was: no re-decode happens and the entry survives with memory still 0,
so the next cycle is in the same position. -/
theorem c4_counterexample :
    fxProcMem0.memory = 0 ∧
    (decode_proc_args 1 none fxTaskAll.start_tvsec fxBufNew).exe = "/new" ∧
    (refresh_processes (fxSysOracle fxOracleFull)
      (fxSystem [(1, fxProcMem0)])).process_list = [(1, fxProcMem0)] ∧
    fxProcMem0.exe = "old" := by
  decide

/-- C4 amended: a table entry whose resident memory is 0 is indeed never
incrementally updated when encountered, but it is not re-decoded either:
update_process returns at once with no descriptor, leaving every field
of the entry unchanged except the touched marker, which is forced so
that the sweep keeps the zero-memory entry as it is for the next cycle
(which will short-circuit the same way). -/
theorem c4_amended_zero_memory_skip (o : ProcOracle) (t : Table) (pid : Int)
    (p : Process) (hp : tableLookup t pid = some p) (hm : p.memory = 0) :
    update_process o t pid = (.ok none, tableModify t pid force_update) ∧
    tableLookup (update_process o t pid).2 pid = some { p with updated := true } :=
  update_process_zero_memory o t pid p hp hm

/-- C4 witness: the amended theorem applied at the one-entry table whose
entry has zero memory. -/
theorem c4_amended_zero_memory_skip_witness :
    tableLookup [(1, fxProcMem0)] 1 = some fxProcMem0 ∧
    fxProcMem0.memory = 0 ∧
    tableLookup (update_process fxOracleFull [(1, fxProcMem0)] 1).2 1
      = some { fxProcMem0 with updated := true } :=
  ⟨by decide, by decide,
    (c4_amended_zero_memory_skip fxOracleFull [(1, fxProcMem0)] 1 fxProcMem0
      (by decide) (by decide)).2⟩

/-! Claim C5. -/

/-- A per-pid oracle with a successful taskallinfo query, a successfully
read two-byte argument buffer, and a parseable textual-fallback output
standing ready. -/
def fxOracleShortBuf : ProcOracle :=
  { threadinfo := none, taskinfo := none, time := 0,
    taskallinfo := some fxTaskAll, procargs := some [9, 9],
    ps_output := some "9 psname" }

/-- The minimal descriptor the short-buffer path produces from the
fixture taskallinfo record. -/
def fxShortDecoded : Process :=
  { Process.new 1 none 7 with
      memory := 2, virtual_memory := 4, uid := 1, gid := 2,
      process_status := 3 }

/-- C5 counterexample: for a pid absent from the table, with a
successfully read buffer of two bytes (shorter than the four-byte
header), update_process does NOT fail and does NOT fall back: it
returns the minimal descriptor with empty name and argv, although the
ready textual fallback would have produced the name psname. -/
theorem c5_counterexample :
    ([9, 9] : List Nat).length < 4 ∧
    (update_process fxOracleShortBuf [] 1).1 = .ok (some fxShortDecoded) ∧
    fxShortDecoded.name = "" ∧ fxShortDecoded.cmd = [] ∧
    ((.ok (some fxShortDecoded) : Except Unit (Option Process)) ≠ .error ()) := by
  decide

/-- C5 amended: when the buffer sysctl itself fails the decode fails,
but a successfully read buffer not longer than the header does not: the
pid gets a minimal descriptor built from the taskallinfo record and the
textual fallback is not consulted.  The fallback belongs to the failing
taskallinfo query; when that query and the fallback both fail the pid
yields the per-pid error, and refresh_processes drops the pid for the
cycle (absent from the resulting table) while the refresh itself
completes normally. -/
theorem c5_amended_short_buffer (o : ProcOracle) (t : Table) (pid : Int)
    (tai : TaskAllInfo) (buf : List Nat) (os : SysOracle) (s : System)
    (pids : List Int) (hnew : tableLookup t pid = none) :
    (o.taskallinfo = some tai → o.procargs = some buf → buf.length ≤ 4 →
      (update_process o t pid).1 = .ok (some
        { Process.new pid (if tai.ppid = 0 then none else some tai.ppid)
            tai.start_tvsec with
            memory := tai.resident >>> 10,
            virtual_memory := tai.virtualSize >>> 10,
            uid := tai.uid, gid := tai.gid,
            process_status := tai.statusCode })) ∧
    (o.taskallinfo = none → o.ps_output = none →
      (update_process o t pid).1 = .error ()) ∧
    (o.taskallinfo = some tai → o.procargs = none →
      (update_process o t pid).1 = .error ()) ∧
    (get_proc_list os = some pids →
      (os.perPid pid).taskallinfo = none → (os.perPid pid).ps_output = none →
      tableLookup s.process_list pid = none →
      tableLookup (refresh_processes os s).process_list pid = none) := by
  refine ⟨?_, ?_, ?_, ?_⟩
  · intro h1 h2 h3
    exact update_process_short_buffer o t pid tai buf hnew h1 h2 h3
  · intro h1 h2
    exact update_process_new_all_fail o t pid hnew h1 h2
  · intro h1 h2
    unfold update_process
    simp [hnew, h1, h2]
  · intro hgl hta hps hsn
    unfold refresh_processes
    by_cases hc : os.count1 < 1
    · simp only [if_pos hc]
      exact hsn
    · simp only [if_neg hc, hgl]
      apply clear_procs_lookup_none
      rw [insertEntries_lookup_other _ _ _ (fun e he =>
        run_pids_entries_ne os.perPid pids s.process_list [] pid hsn
          hta hps (fun e2 he2 => absurd he2 (List.not_mem_nil e2)) e he)]
      exact run_pids_lookup_none os.perPid pids s.process_list [] pid hsn

/-- C5 witness: the short-buffer branch of the amended theorem applied
at the concrete two-byte buffer. -/
theorem c5_amended_short_buffer_witness :
    fxOracleShortBuf.taskallinfo = some fxTaskAll ∧
    fxOracleShortBuf.procargs = some [9, 9] ∧
    ([9, 9] : List Nat).length ≤ 4 ∧
    (update_process fxOracleShortBuf [] 1).1 = .ok (some
      { Process.new 1 (if fxTaskAll.ppid = 0 then none else some fxTaskAll.ppid)
          fxTaskAll.start_tvsec with
          memory := fxTaskAll.resident >>> 10,
          virtual_memory := fxTaskAll.virtualSize >>> 10,
          uid := fxTaskAll.uid, gid := fxTaskAll.gid,
          process_status := fxTaskAll.statusCode }) :=
  ⟨rfl, rfl, by decide,
    (c5_amended_short_buffer fxOracleShortBuf [] 1 fxTaskAll [9, 9]
      fxEnumFail (fxSystem []) [] (by decide)).1 rfl rfl (by decide)⟩

/-! Claim C3. -/

/-- A dead entry fixture (absent from the enumerated set) for the C3
witness. -/
def fxProcDead : Process :=
  { Process.new 3 none 0 with memory := 2, updated := false }

/-- An incremental-success oracle for the C3 witness. -/
def fxOracleIncr : ProcOracle :=
  { threadinfo := none,
    taskinfo := some { resident := 4096, virtualSize := 8192,
                       total_user := 5, total_system := 5 },
    time := 9, taskallinfo := none, procargs := none, ps_output := none }

/-- The C3 witness host oracle: enumerates pid 1 with incremental
success. -/
def fxSysOracleW : SysOracle :=
  { count1 := 2, count2 := 2, pidsArr := [1, 2], x := 1,
    perPid := fun _ => fxOracleIncr }

/-- C3 counterexample: pid 1 is in the enumerated live set and in the
table with nonzero memory, yet its counter read fails, the entry is
never marked, and the completed cycle removes it: a pid of the
enumerated set is removed, so the sweep is not exact in the claim
sense. -/
theorem c3_counterexample :
    get_proc_list (fxSysOracle fxOracleFail) = some [1] ∧
    tableLookup [(1, fxProcMem1)] 1 = some fxProcMem1 ∧
    (refresh_processes (fxSysOracle fxOracleFail)
      (fxSystem [(1, fxProcMem1)])).process_list = [] := by
  decide

/-- C3 amended: the sweep is exact with respect to the touched marker,
not the enumerated set.  Starting from a table with distinct keys none
of whose entries is pre-marked, a completed cycle removes every table
pid absent from the enumerated list, and keeps every enumerated table
pid whose per-pid update succeeds (zero-memory force-mark, or a
successful counter read); an enumerated table pid whose counter read
fails is removed instead (see the counterexample). -/
theorem c3_amended_liveness_sweep (o : SysOracle) (s : System)
    (pids : List Int) (hgl : get_proc_list o = some pids)
    (hc : ¬ o.count1 < 1) (hnd : pids.Nodup)
    (hknd : keysNodup s.process_list)
    (hclean : ∀ e ∈ s.process_list, e.2.updated = false) :
    (∀ pid p, tableLookup s.process_list pid = some p → pid ∉ pids →
      tableLookup (refresh_processes o s).process_list pid = none) ∧
    (∀ pid p, pid ∈ pids → tableLookup s.process_list pid = some p →
      (p.memory = 0 ∨ ((o.perPid pid).taskinfo).isSome = true) →
      (tableLookup (refresh_processes o s).process_list pid).isSome = true) := by
  have hre : (refresh_processes o s).process_list
      = clear_procs (insertEntries
          (run_pids o.perPid pids s.process_list []).1
          (run_pids o.perPid pids s.process_list []).2) := by
    unfold refresh_processes
    rw [if_neg hc, hgl]
  constructor
  · intro pid p hp hnotin
    rw [hre]
    have h1 : tableLookup (run_pids o.perPid pids s.process_list []).1 pid
        = some p := by
      rw [run_pids_lookup_notin o.perPid pids s.process_list [] pid hnotin]
      exact hp
    have hne : ∀ e ∈ (run_pids o.perPid pids s.process_list []).2,
        e.pid ≠ pid := by
      intro e he
      rcases run_pids_entries o.perPid pids s.process_list [] e he with h | h
      · cases h
      · intro hq
        rw [hq] at h
        exact hnotin h
    have h2 : tableLookup (insertEntries
        (run_pids o.perPid pids s.process_list []).1
        (run_pids o.perPid pids s.process_list []).2) pid = some p := by
      rw [insertEntries_lookup_other _ _ _ hne]
      exact h1
    have hnd2 : keysNodup (insertEntries
        (run_pids o.perPid pids s.process_list []).1
        (run_pids o.perPid pids s.process_list []).2) := by
      apply insertEntries_nodup
      unfold keysNodup
      rw [run_pids_keys]
      exact hknd
    have hpu : p.updated = false := hclean (pid, p) (tableLookup_mem _ _ _ hp)
    exact clear_procs_lookup_dropped _ pid p hnd2 h2 hpu
  · intro pid p hin hp hsucc
    rw [hre]
    obtain ⟨l1, l2, rfl⟩ := List.append_of_mem hin
    have hd12 := List.disjoint_of_nodup_append hnd
    have hnotl1 : pid ∉ l1 := fun hm => hd12 hm (List.mem_cons_self _ _)
    have hnotl2 : pid ∉ l2 := by
      have h2 := (List.nodup_append.mp hnd).2.1
      rw [List.nodup_cons] at h2
      exact h2.1
    rw [run_pids_append o.perPid l1 (pid :: l2) s.process_list []]
    set R1 := run_pids o.perPid l1 s.process_list [] with hR1
    have hlook1 : tableLookup R1.1 pid = some p := by
      rw [hR1, run_pids_lookup_notin o.perPid l1 s.process_list [] pid hnotl1]
      exact hp
    have hfacts : ∃ px, (update_process (o.perPid pid) R1.1 pid).1 = .ok none ∧
        tableLookup (update_process (o.perPid pid) R1.1 pid).2 pid = some px ∧
        px.updated = true := by
      by_cases hm0 : p.memory = 0
      · have hz := update_process_zero_memory (o.perPid pid) R1.1 pid p hlook1 hm0
        exact ⟨{ p with updated := true }, by rw [hz.1], hz.2, rfl⟩
      · rcases hsucc with hm | hti
        · exact absurd hm hm0
        · obtain ⟨ti, hti2⟩ := Option.isSome_iff_exists.mp hti
          obtain ⟨h1, px, h2, h3⟩ := update_process_incr_success (o.perPid pid)
            R1.1 pid p ti hlook1 hm0 hti2
          exact ⟨px, h1, h2, h3⟩
    obtain ⟨px, hr1, hlpx, hpxu⟩ := hfacts
    simp only [run_pids, hr1]
    have hl2x : tableLookup (run_pids o.perPid l2
        (update_process (o.perPid pid) R1.1 pid).2 R1.2).1 pid = some px := by
      rw [run_pids_lookup_notin o.perPid l2 _ _ pid hnotl2]
      exact hlpx
    have hne : ∀ e ∈ (run_pids o.perPid l2
        (update_process (o.perPid pid) R1.1 pid).2 R1.2).2, e.pid ≠ pid := by
      intro e he
      rcases run_pids_entries o.perPid l2 _ _ e he with h | h
      · rcases run_pids_entries o.perPid l1 s.process_list [] e h with h2 | h2
        · cases h2
        · intro hq
          rw [hq] at h2
          exact hnotl1 h2
      · intro hq
        rw [hq] at h
        exact hnotl2 h
    have h4 : tableLookup (insertEntries (run_pids o.perPid l2
          (update_process (o.perPid pid) R1.1 pid).2 R1.2).1
        (run_pids o.perPid l2
          (update_process (o.perPid pid) R1.1 pid).2 R1.2).2) pid = some px := by
      rw [insertEntries_lookup_other _ _ _ hne]
      exact hl2x
    rw [clear_procs_lookup_kept _ pid px h4 hpxu]
    rfl

/-- C3 witness: the amended theorem applied to a cycle enumerating pid 1
(incremental success) over a table holding pid 1 and a dead pid 3: the
dead pid is removed and the live one kept. -/
theorem c3_amended_liveness_sweep_witness :
    get_proc_list fxSysOracleW = some [1] ∧
    tableLookup [(1, fxProcMem1), (3, fxProcDead)] 3 = some fxProcDead ∧
    tableLookup (refresh_processes fxSysOracleW
      (fxSystem [(1, fxProcMem1), (3, fxProcDead)])).process_list 3 = none ∧
    (tableLookup (refresh_processes fxSysOracleW
      (fxSystem [(1, fxProcMem1), (3, fxProcDead)])).process_list 1).isSome
      = true :=
  ⟨by decide, by decide,
    (c3_amended_liveness_sweep fxSysOracleW
      (fxSystem [(1, fxProcMem1), (3, fxProcDead)]) [1] (by decide) (by decide)
      (by decide) (by decide) (by decide)).1 3 fxProcDead (by decide) (by decide),
    (c3_amended_liveness_sweep fxSysOracleW
      (fxSystem [(1, fxProcMem1), (3, fxProcDead)]) [1] (by decide) (by decide)
      (by decide) (by decide) (by decide)).2 1 fxProcMem1 (by decide) (by decide)
      (Or.inr (by decide))⟩
end Sysinfo
